import Mathlib

/-!
# Verification of the BIC-MOBO trial-pipeline orchestration

Shallow embedding of the Python sources of the BIC-MOBO repository
(`EICMOBOTestTools/FileManager.py`, `EICMoboTools/GeometryEditor.py`,
`EICMoboTools/ConfigParser.py`, `objectives/BICEnergyResolution.py`,
`interfaces/RunObjectives.py`) together with proofs and refutations of
the specification's testable properties.

Strings are modelled as `List Char` (the character sequence of a Python
`str`); Python dictionaries are modelled as insertion-ordered association
lists; the file system is modelled as an association list from path to
file content.
-/

namespace BICMOBO

/-! ## Generic insertion-ordered dictionaries (Python `dict`) -/

/-- Python dictionary assignment `d[k] = v`: if the key is present the
value is updated in place (keeping its position), otherwise the pair is
appended at the end, matching insertion-order semantics. -/
def upsert {K V : Type} [DecidableEq K] : List (K × V) → K → V → List (K × V)
  | [], k, v => [(k, v)]
  | (k', v') :: rest, k, v =>
      if k' = k then (k, v) :: rest else (k', v') :: upsert rest k v

/-- Python dictionary lookup `d.get(k)`: first (hence unique) binding. -/
def dlookup {K V : Type} [DecidableEq K] : List (K × V) → K → Option V
  | [], _ => none
  | (k', v') :: rest, k => if k' = k then some v' else dlookup rest k

theorem dlookup_upsert_self {K V : Type} [DecidableEq K]
    (d : List (K × V)) (k : K) (v : V) :
    dlookup (upsert d k v) k = some v := by
  induction d with
  | nil => simp [upsert, dlookup]
  | cons hd tl ih =>
      obtain ⟨k', v'⟩ := hd
      by_cases h : k' = k
      · simp [upsert, dlookup, h]
      · simp [upsert, dlookup, h, ih]

theorem dlookup_upsert_ne {K V : Type} [DecidableEq K]
    (d : List (K × V)) (k k' : K) (v : V) (h : k' ≠ k) :
    dlookup (upsert d k v) k' = dlookup d k' := by
  induction d with
  | nil => simp [upsert, dlookup, Ne.symm h]
  | cons hd tl ih =>
      obtain ⟨k0, v0⟩ := hd
      by_cases h0 : k0 = k
      · subst h0
        simp [upsert, dlookup, Ne.symm h]
      · simp [upsert, dlookup, h0, ih]

/-! ## Naming grammar (`EICMOBOTestTools/FileManager.py`)

`GetSuffix`, `MakeOutName`, `MakeScriptName` and `ConvertSteeringToTag`
transliterated from the source.  Python strings are `List Char`;
`"lit".data` is the character list of a Lean string literal. -/

/-- `FileManager.GetSuffix`: stage-dependent suffix. -/
def getSuffix (stage analysis : List Char) : List Char :=
  if stage = "sim".data then ".edm4hep".data
  else if stage = "rec".data then ".edm4eic".data
  else if stage = "ana".data then "_".data ++ analysis
  else []

/-- `FileManager.MakeOutName`: output-file name for a stage of a trial.
`pfx` is the optional `prefix` argument (default `""`, i.e. `[]`). -/
def makeOutName (tag label steer stage analysis pfx : List Char) : List Char :=
  let p : List Char :=
    if pfx = [] then "aid2e_".data else "aid2e_".data ++ pfx ++ "_".data
  p ++ stage ++ ".".data ++ tag ++ "_".data ++ label ++ "_".data ++ steer
    ++ getSuffix stage analysis ++ ".root".data

/-- `FileManager.MakeScriptName`: name of the generated runner script. -/
def makeScriptName (tag label steer stage : List Char) : List Char :=
  "do_aid2e_".data ++ stage ++ ".".data ++ tag ++ "_".data ++ label
    ++ "_".data ++ steer ++ ".sh".data

/-- Index of the last occurrence of `c` in `p` (Python `str.rfind`),
`none` when absent. -/
def rfindIdx : List Char → Char → Option Nat
  | [], _ => none
  | x :: xs, c =>
      match rfindIdx xs c with
      | some i => some (i + 1)
      | none => if x = c then some 0 else none

/-- `os.path.basename`: everything after the last slash. -/
def basenameCL (p : List Char) : List Char :=
  match rfindIdx p '/' with
  | none => p
  | some i => p.drop (i + 1)

/-- `os.path.splitext` for a path without directory separators (the
source only applies it to a basename): split at the last dot, except
that a name consisting solely of leading dots up to that position keeps
no extension. -/
def splitextCL (p : List Char) : List Char × List Char :=
  match rfindIdx p '.' with
  | none => (p, [])
  | some d =>
      if (p.take d).all (fun c => c = '.') then (p, [])
      else (p.take d, p.drop d)

/-- `FileManager.ConvertSteeringToTag`: strip path and extension, then
replace every dot by an underscore (`str.replace` with one-character
pattern and replacement is a character-wise map). -/
def convertSteeringToTag (steer : List Char) : List Char :=
  let tag := (splitextCL (basenameCL steer)).1
  tag.map (fun c => if c = '.' then '_' else c)

/-- C7: `ConvertSteeringToTag "central.e5ele.py"` is `"central_e5ele"`,
and `MakeOutName "T1" "single_electron" "central_e5ele" "sim"` (default
analysis and prefix arguments) is
`"aid2e_sim.T1_single_electron_central_e5ele.edm4hep.root"`. -/
theorem C7_example_names :
    convertSteeringToTag "central.e5ele.py".data = "central_e5ele".data ∧
    makeOutName "T1".data "single_electron".data "central_e5ele".data
        "sim".data "".data "".data
      = "aid2e_sim.T1_single_electron_central_e5ele.edm4hep.root".data := by
  exact ⟨by decide, by decide⟩

/-! ## Injectivity analysis of the naming grammar (claim C1) -/

/-- Splitting at the first occurrence of a separator is unambiguous:
if neither left part contains the separator, equal joined strings have
equal parts. -/
theorem append_sep_inj {sep : Char} (a : List Char) :
    ∀ (c b d : List Char), sep ∉ a → sep ∉ c →
      a ++ sep :: b = c ++ sep :: d → a = c ∧ b = d := by
  induction a with
  | nil =>
      intro c b d _ hc h
      cases c with
      | nil => simpa using h
      | cons x xs =>
          simp only [List.nil_append, List.cons_append, List.cons.injEq] at h
          have : sep ∈ x :: xs := by rw [h.1]; exact List.mem_cons_self x xs
          exact absurd this hc
  | cons x xs ih =>
      intro c b d ha hc h
      cases c with
      | nil =>
          simp only [List.cons_append, List.nil_append, List.cons.injEq] at h
          have : sep ∈ x :: xs := by rw [← h.1]; exact List.mem_cons_self x xs
          exact absurd this ha
      | cons y ys =>
          simp only [List.cons_append, List.cons.injEq] at h
          obtain ⟨hxy, hrest⟩ := h
          have ha' : sep ∉ xs := fun hm => ha (List.mem_cons_of_mem _ hm)
          have hc' : sep ∉ ys := fun hm => hc (List.mem_cons_of_mem _ hm)
          obtain ⟨h1, h2⟩ := ih ys b d ha' hc' hrest
          exact ⟨by rw [hxy, h1], h2⟩

/-- Right-associated, cons-normalized form of `makeOutName` with the
default (empty) prefix argument. -/
theorem makeOutName_eq (tag label steer stage analysis : List Char) :
    makeOutName tag label steer stage analysis [] =
      "aid2e_".data ++ (stage ++ '.' ::
        (tag ++ '_' :: (label ++ '_' ::
          (steer ++ (getSuffix stage analysis ++ ".root".data))))) := by
  have hdot : ".".data = ['.'] := rfl
  have hund : "_".data = ['_'] := rfl
  simp [makeOutName, hdot, hund, List.append_assoc]

/-- Right-associated, cons-normalized form of `makeScriptName`. -/
theorem makeScriptName_eq (tag label steer stage : List Char) :
    makeScriptName tag label steer stage =
      "do_aid2e_".data ++ (stage ++ '.' ::
        (tag ++ '_' :: (label ++ '_' :: (steer ++ ".sh".data)))) := by
  have hdot : ".".data = ['.'] := rfl
  have hund : "_".data = ['_'] := rfl
  simp [makeScriptName, hdot, hund, List.append_assoc]

theorem getSuffix_sim (a : List Char) : getSuffix "sim".data a = ".edm4hep".data := rfl

theorem getSuffix_rec (a : List Char) : getSuffix "rec".data a = ".edm4eic".data := rfl

theorem getSuffix_ana (a : List Char) : getSuffix "ana".data a = '_' :: a := rfl

/-- C1 counterexample: the keys `("t","l","s","sim","a")` and
`("t","l","s","sim","b")` differ in the analysis component, yet
`MakeOutName` returns the same output name for both (the analysis
argument is ignored for any stage other than `"ana"`), so the claimed
injectivity over all distinct keys fails. -/
theorem C1_counterexample :
    "a".data ≠ "b".data ∧
    makeOutName "t".data "l".data "s".data "sim".data "a".data [] =
      makeOutName "t".data "l".data "s".data "sim".data "b".data [] := by
  exact ⟨by decide, by decide⟩

/-- C1 (amended): `MakeOutName` and `MakeScriptName` are deterministic
(same key, same name), and injective on keys whose tag, label and
steering-tag components are free of the underscore separator and whose
stage is one of `"sim"`, `"rec"`, `"ana"` — except that the analysis
component is recoverable only for stage `"ana"` (`MakeOutName` ignores
it for the other stages, and `MakeScriptName` never depends on it). -/
theorem C1_naming_injective (t1 l1 s1 st1 a1 t2 l2 s2 st2 a2 : List Char)
    (ht1 : '_' ∉ t1) (hl1 : '_' ∉ l1) (hs1 : '_' ∉ s1)
    (ht2 : '_' ∉ t2) (hl2 : '_' ∉ l2) (hs2 : '_' ∉ s2)
    (hst1 : st1 = "sim".data ∨ st1 = "rec".data ∨ st1 = "ana".data)
    (hst2 : st2 = "sim".data ∨ st2 = "rec".data ∨ st2 = "ana".data) :
    makeOutName t1 l1 s1 st1 a1 [] = makeOutName t1 l1 s1 st1 a1 [] ∧
    makeScriptName t1 l1 s1 st1 = makeScriptName t1 l1 s1 st1 ∧
    (makeOutName t1 l1 s1 st1 a1 [] = makeOutName t2 l2 s2 st2 a2 [] →
      t1 = t2 ∧ l1 = l2 ∧ s1 = s2 ∧ st1 = st2 ∧
        (st1 = "ana".data → a1 = a2)) ∧
    (makeScriptName t1 l1 s1 st1 = makeScriptName t2 l2 s2 st2 →
      t1 = t2 ∧ l1 = l2 ∧ s1 = s2 ∧ st1 = st2) := by
  have hdot1 : '.' ∉ st1 := by
    rcases hst1 with h | h | h <;> subst h <;> decide
  have hdot2 : '.' ∉ st2 := by
    rcases hst2 with h | h | h <;> subst h <;> decide
  refine ⟨rfl, rfl, ?_, ?_⟩
  · intro h
    rw [makeOutName_eq, makeOutName_eq] at h
    have h1 := List.append_cancel_left h
    obtain ⟨hst, h2⟩ := append_sep_inj st1 st2 _ _ hdot1 hdot2 h1
    obtain ⟨ht, h3⟩ := append_sep_inj t1 t2 _ _ ht1 ht2 h2
    obtain ⟨hl, h4⟩ := append_sep_inj l1 l2 _ _ hl1 hl2 h3
    subst hst
    rcases hst1 with hS | hS | hS <;> subst hS
    · rw [getSuffix_sim, getSuffix_sim] at h4
      exact ⟨ht, hl, List.append_cancel_right h4, rfl, fun hA => by cases hA⟩
    · rw [getSuffix_rec, getSuffix_rec] at h4
      exact ⟨ht, hl, List.append_cancel_right h4, rfl, fun hA => by cases hA⟩
    · rw [getSuffix_ana, getSuffix_ana] at h4
      simp only [List.cons_append] at h4
      obtain ⟨hs, h5⟩ := append_sep_inj s1 s2 _ _ hs1 hs2 h4
      exact ⟨ht, hl, hs, rfl, fun _ => List.append_cancel_right h5⟩
  · intro h
    rw [makeScriptName_eq, makeScriptName_eq] at h
    have h1 := List.append_cancel_left h
    obtain ⟨hst, h2⟩ := append_sep_inj st1 st2 _ _ hdot1 hdot2 h1
    obtain ⟨ht, h3⟩ := append_sep_inj t1 t2 _ _ ht1 ht2 h2
    obtain ⟨hl, h4⟩ := append_sep_inj l1 l2 _ _ hl1 hl2 h3
    exact ⟨ht, hl, List.append_cancel_right h4, hst⟩

/-- Concrete instantiation of `C1_naming_injective` at the key
`("t1", "el", "cs", "ana", "x")`. -/
theorem C1_naming_injective_witness :
    ('_' ∉ "t1".data) ∧
    (makeOutName "t1".data "el".data "cs".data "ana".data "x".data [] =
        makeOutName "t1".data "el".data "cs".data "ana".data "x".data [] ∧
      makeScriptName "t1".data "el".data "cs".data "ana".data =
        makeScriptName "t1".data "el".data "cs".data "ana".data ∧
      (makeOutName "t1".data "el".data "cs".data "ana".data "x".data [] =
          makeOutName "t1".data "el".data "cs".data "ana".data "x".data [] →
        "t1".data = "t1".data ∧ "el".data = "el".data ∧
          "cs".data = "cs".data ∧ "ana".data = "ana".data ∧
          ("ana".data = "ana".data → "x".data = "x".data)) ∧
      (makeScriptName "t1".data "el".data "cs".data "ana".data =
          makeScriptName "t1".data "el".data "cs".data "ana".data →
        "t1".data = "t1".data ∧ "el".data = "el".data ∧
          "cs".data = "cs".data ∧ "ana".data = "ana".data)) :=
  ⟨by decide,
    C1_naming_injective "t1".data "el".data "cs".data "ana".data "x".data
      "t1".data "el".data "cs".data "ana".data "x".data
      (by decide) (by decide) (by decide) (by decide) (by decide) (by decide)
      (by decide) (by decide)⟩

/-! ## Geometry materialization (`EICMoboTools/GeometryEditor.py`)

The file system is an association list from path (`List Char`) to file
content.  `shutil.copyfile` reads the source file and writes its content
to the target, failing when the source does not exist. -/

/-- Python `str.replace(pat, rep)`: replace every non-overlapping
occurrence of `pat`, scanning left to right.  (For an empty pattern the
source never calls it; this model then returns the string unchanged.) -/
def replaceAllFuel : Nat → List Char → List Char → List Char → List Char
  | _, [], _, _ => []
  | 0, s, _, _ => s
  | Nat.succ n, c :: rest, pat, rep =>
      if pat ≠ [] ∧ pat.isPrefixOf (c :: rest) then
        rep ++ replaceAllFuel n ((c :: rest).drop pat.length) pat rep
      else
        c :: replaceAllFuel n rest pat rep

/-- Each scanning step consumes at least one character, so `s.length`
steps of fuel always suffice. -/
def replaceAll (s pat rep : List Char) : List Char :=
  replaceAllFuel s.length s pat rep

/-- Environment configuration, the keys of `environment_config.json`
read by `GeometryEditor.__init__`. -/
structure EnviroCfg where
  det_path : List Char
  det_config : List Char

/-- A design parameter as structured in the parameter configuration
file: the compact file it lives in, its structural path (element-tag
segments), the attribute to edit and its unit string. -/
structure DesignParam where
  compact : List Char
  path : List String
  elem : String
  units : String

/-- Errors surfaced by file-system operations. -/
inductive FsErr
  | fileNotFound
deriving DecidableEq

deriving instance DecidableEq for Except

/-- Path of the base compact file: `det_path + "/" + param["compact"]`. -/
def oldCompactName (env : EnviroCfg) (param : DesignParam) : List Char :=
  env.det_path ++ "/".data ++ param.compact

/-- Tagged target path: the base path with `".xml"` replaced by
`"_" + tag + ".xml"` (`GeometryEditor.__GetCompact`). -/
def targetCompactName (env : EnviroCfg) (param : DesignParam) (tag : List Char) : List Char :=
  replaceAll (oldCompactName env param) ".xml".data ("_".data ++ tag ++ ".xml".data)

/-- `GeometryEditor.__GetCompact` over an explicit file-system state:
returns the tagged path, the new file-system state, and whether a copy
was performed.  The copy happens only when the tagged file does not yet
exist; copying a missing base file fails. -/
def getCompact {α : Type} (fs : List (List Char × α)) (env : EnviroCfg)
    (param : DesignParam) (tag : List Char) :
    Except FsErr (List Char × List (List Char × α) × Bool) :=
  let newC := targetCompactName env param tag
  if (dlookup fs newC).isSome then .ok (newC, fs, false)
  else
    match dlookup fs (oldCompactName env param) with
    | none => .error .fileNotFound
    | some content => .ok (newC, upsert fs newC content, true)

/-- C4: a second `__GetCompact` call with the same base file and tag
returns the same target path, leaves the file system (hence the file
content) unchanged, and performs no second copy; and when the tagged
artifact already exists, the call never overwrites it (the file system
is returned untouched and no copy is performed). -/
theorem C4_getCompact_idempotent {α : Type} (fs : List (List Char × α))
    (env : EnviroCfg) (param : DesignParam) (tag p1 : List Char)
    (fs1 : List (List Char × α)) (c1 : Bool)
    (h : getCompact fs env param tag = .ok (p1, fs1, c1)) :
    p1 = targetCompactName env param tag ∧
    getCompact fs1 env param tag = .ok (p1, fs1, false) ∧
    ((dlookup fs (targetCompactName env param tag)).isSome →
      fs1 = fs ∧ c1 = false) := by
  by_cases hex : (dlookup fs (targetCompactName env param tag)).isSome
  · rw [getCompact, if_pos hex] at h
    obtain ⟨hp, hfs, hc⟩ := by simpa using h
    subst hp hfs hc
    exact ⟨rfl, by rw [getCompact, if_pos hex], fun _ => ⟨rfl, rfl⟩⟩
  · rw [getCompact, if_neg hex] at h
    cases hold : dlookup fs (oldCompactName env param) with
    | none => rw [hold] at h; cases h
    | some content =>
        rw [hold] at h
        obtain ⟨hp, hfs, hc⟩ := by simpa using h
        subst hp hfs hc
        refine ⟨rfl, ?_, fun hx => absurd hx hex⟩
        have hsome : (dlookup (upsert fs (targetCompactName env param tag) content)
            (targetCompactName env param tag)).isSome := by
          rw [dlookup_upsert_self]; rfl
        rw [getCompact, if_pos hsome]

/-- Concrete instantiation of `C4_getCompact_idempotent`: base compact
`/d/base.xml` with content `content`, tag `T1`. -/
theorem C4_getCompact_idempotent_witness :
    getCompact [("/d/base.xml".data, "content".data)]
        ⟨"/d".data, "cfg".data⟩ ⟨"base.xml".data, [], "x", ""⟩ "T1".data
      = .ok ("/d/base_T1.xml".data,
          [("/d/base.xml".data, "content".data),
           ("/d/base_T1.xml".data, "content".data)], true) ∧
    ("/d/base_T1.xml".data
        = targetCompactName ⟨"/d".data, "cfg".data⟩
            ⟨"base.xml".data, [], "x", ""⟩ "T1".data ∧
      getCompact [("/d/base.xml".data, "content".data),
          ("/d/base_T1.xml".data, "content".data)]
          ⟨"/d".data, "cfg".data⟩ ⟨"base.xml".data, [], "x", ""⟩ "T1".data
        = .ok ("/d/base_T1.xml".data,
            [("/d/base.xml".data, "content".data),
             ("/d/base_T1.xml".data, "content".data)], false) ∧
      ((dlookup [("/d/base.xml".data, "content".data)]
          (targetCompactName ⟨"/d".data, "cfg".data⟩
            ⟨"base.xml".data, [], "x", ""⟩ "T1".data)).isSome →
        [("/d/base.xml".data, "content".data),
         ("/d/base_T1.xml".data, "content".data)]
          = [("/d/base.xml".data, "content".data)] ∧ true = false)) :=
  ⟨by decide, C4_getCompact_idempotent _ _ _ _ _ _ _ (by decide)⟩

/-! ## Structural (XML) documents and `EditCompact` (claim C5)

The compact file is a tree of elements, each with a tag, an attribute
dictionary and a list of children.  `ElementTree.find(path)` returns the
first element, in document order, matching the `/`-separated element
path; `elem.set(k, v)` assigns an attribute. -/

inductive XElem where
  | mk (tag : String) (attrs : List (String × String)) (children : List XElem)

/-- Tag accessor. -/
def XElem.tagOf : XElem → String
  | .mk t _ _ => t

/-- `elem.get(k)`: attribute lookup. -/
def getAttr (e : XElem) (k : String) : Option String :=
  match e with
  | .mk _ a _ => dlookup a k

/-- `elem.set(k, v)`: attribute assignment. -/
def setAttrElem (k v : String) : XElem → XElem
  | .mk t a c => .mk t (upsert a k v) c

mutual

/-- `root.find(path)` on a segmented element path: document-order first
match (for each matching child in order, the first full match below it
wins). -/
def findPath : XElem → List String → Option XElem
  | e, [] => some e
  | .mk _ _ children, s :: rest => findInChildren children s rest

def findInChildren : List XElem → String → List String → Option XElem
  | [], _, _ => none
  | c :: cs, s, rest =>
      if c.tagOf = s then
        match findPath c rest with
        | some r => some r
        | none => findInChildren cs s rest
      else findInChildren cs s rest

end

mutual

/-- Functional rendering of the in-place mutation performed by the
source (`find` then `set` then `write`): rebuild the tree with `f`
applied to the element `findPath` locates; `none` when the path does
not resolve. -/
def editPath (f : XElem → XElem) : XElem → List String → Option XElem
  | e, [] => some (f e)
  | .mk t a children, s :: rest =>
      match editInChildren f children s rest with
      | some cs => some (.mk t a cs)
      | none => none

def editInChildren (f : XElem → XElem) : List XElem → String → List String → Option (List XElem)
  | [], _, _ => none
  | c :: cs, s, rest =>
      if c.tagOf = s then
        match editPath f c rest with
        | some c2 => some (c2 :: cs)
        | none =>
            match editInChildren f cs s rest with
            | some cs2 => some (c :: cs2)
            | none => none
      else
        match editInChildren f cs s rest with
        | some cs2 => some (c :: cs2)
        | none => none

end

mutual

theorem editPath_none (f : XElem → XElem) :
    (e : XElem) → (p : List String) → findPath e p = none → editPath f e p = none
  | e, [], h => by simp [findPath] at h
  | .mk t a children, s :: rest, h => by
      simp only [findPath] at h
      simp only [editPath, editInChildren_none f children s rest h]

theorem editInChildren_none (f : XElem → XElem) :
    (cs : List XElem) → (s : String) → (rest : List String) →
      findInChildren cs s rest = none → editInChildren f cs s rest = none
  | [], _, _, _ => rfl
  | c :: cs, s, rest, h => by
      by_cases htag : c.tagOf = s
      · cases hfp : findPath c rest with
        | some r => simp [findInChildren, htag, hfp] at h
        | none =>
            have h' : findInChildren cs s rest = none := by
              simpa [findInChildren, htag, hfp] using h
            simp [editInChildren, htag, editPath_none f c rest hfp,
              editInChildren_none f cs s rest h']
      · have h' : findInChildren cs s rest = none := by
          simpa [findInChildren, htag] using h
        simp [editInChildren, htag, editInChildren_none f cs s rest h']

end

mutual

/-- Editing the element that `find` locates leaves it locatable: after
the rebuild, `find` on the same path returns the edited element
(provided the edit preserves the element's tag). -/
theorem edit_find (f : XElem → XElem) (hf : ∀ x, (f x).tagOf = x.tagOf) :
    (e : XElem) → (p : List String) → (r : XElem) → findPath e p = some r →
      ∃ e', editPath f e p = some e' ∧ findPath e' p = some (f r) ∧
        e'.tagOf = e.tagOf
  | e, [], r, h => by
      have hr : e = r := by simpa [findPath] using h
      subst hr
      exact ⟨f e, by simp [editPath], by simp [findPath], hf e⟩
  | .mk t a children, s :: rest, r, h => by
      simp only [findPath] at h
      obtain ⟨cs', h1, h2⟩ := edit_findChildren f hf children s rest r h
      exact ⟨.mk t a cs', by simp [editPath, h1], by simp [findPath, h2], rfl⟩

theorem edit_findChildren (f : XElem → XElem) (hf : ∀ x, (f x).tagOf = x.tagOf) :
    (cs : List XElem) → (s : String) → (rest : List String) → (r : XElem) →
      findInChildren cs s rest = some r →
      ∃ cs', editInChildren f cs s rest = some cs' ∧
        findInChildren cs' s rest = some (f r)
  | [], s, rest, r, h => by simp [findInChildren] at h
  | c :: cs, s, rest, r, h => by
      by_cases htag : c.tagOf = s
      · cases hfp : findPath c rest with
        | some r0 =>
            have hr : r0 = r := by simpa [findInChildren, htag, hfp] using h
            subst hr
            obtain ⟨c2, he, hfind, htag2⟩ := edit_find f hf c rest r0 hfp
            refine ⟨c2 :: cs, ?_, ?_⟩
            · simp [editInChildren, htag, he]
            · have htc : c2.tagOf = s := htag2.trans htag
              simp [findInChildren, htc, hfind]
        | none =>
            have h' : findInChildren cs s rest = some r := by
              simpa [findInChildren, htag, hfp] using h
            obtain ⟨cs2, he, hfind⟩ := edit_findChildren f hf cs s rest r h'
            refine ⟨c :: cs2, ?_, ?_⟩
            · simp [editInChildren, htag, editPath_none f c rest hfp, he]
            · simp [findInChildren, htag, hfp, hfind]
      · have h' : findInChildren cs s rest = some r := by
          simpa [findInChildren, htag] using h
        obtain ⟨cs2, he, hfind⟩ := edit_findChildren f hf cs s rest r h'
        exact ⟨c :: cs2, by simp [editInChildren, htag, he],
          by simp [findInChildren, htag, hfind]⟩

end

/-- Errors raised by `EditCompact`: `find` returning `None` makes the
subsequent `elemToEdit.set` raise `AttributeError`. -/
inductive EditErr
  | attributeError
deriving DecidableEq

/-- Modelled from the spec: `ConfigParser.GetPathElementAndUnits` is
exported and used by the repository (tests, `EICMOBOTestTools.__init__`)
but its defining module is not under `src/`; spec §4.1
`pathElementAndUnit(param)` decomposes a `DesignParameter` into the
triple `(structuralPath, attributeOrElement, unit)`. -/
def getPathElementAndUnits (p : DesignParam) : List String × String × String :=
  (p.path, p.elem, p.units)

/-- `GeometryEditor.EditCompact` at the document level: locate the
element at the parameter's structural path and set its attribute to
`"{value}*{unit}"` when a unit is present, else to `"{value}"`
(`value` stands for the `str()`-rendering of the Python value).  The
returned document is what `treeToEdit.write` persists in place. -/
def editCompact (doc : XElem) (param : DesignParam) (value : String) :
    Except EditErr XElem :=
  let peu := getPathElementAndUnits param
  let newVal := if peu.2.2 ≠ "" then value ++ "*" ++ peu.2.2 else value
  match editPath (setAttrElem peu.2.1 newVal) doc peu.1 with
  | some t => .ok t
  | none => .error .attributeError

theorem setAttrElem_tagOf (k v : String) (x : XElem) :
    (setAttrElem k v x).tagOf = x.tagOf := by
  cases x; rfl

/-- C5: after `EditCompact` succeeds, re-reading the document at the
parameter's structural path finds an element whose edited attribute is
exactly `"{value}*{unit}"` when the unit is non-empty, and exactly
`"{value}"` when the unit is empty. -/
theorem C5_edit_roundtrip (doc : XElem) (param : DesignParam)
    (value : String) (doc' : XElem)
    (h : editCompact doc param value = .ok doc') :
    ∃ e, findPath doc' param.path = some e ∧
      (param.units ≠ "" → getAttr e param.elem = some (value ++ "*" ++ param.units)) ∧
      (param.units = "" → getAttr e param.elem = some value) := by
  rw [editCompact] at h
  simp only [getPathElementAndUnits] at h
  set newVal := if param.units ≠ "" then value ++ "*" ++ param.units else value with hnv
  cases hfp : findPath doc param.path with
  | none =>
      rw [editPath_none _ doc param.path hfp] at h
      simp at h
  | some r =>
      obtain ⟨e', h1, h2, _⟩ :=
        edit_find (setAttrElem param.elem newVal)
          (setAttrElem_tagOf param.elem newVal) doc param.path r hfp
      rw [h1] at h
      have hde : e' = doc' := by
        simpa using h
      subst hde
      refine ⟨setAttrElem param.elem newVal r, h2, ?_, ?_⟩
      · intro hu
        cases r with
        | mk t a c =>
            simp [setAttrElem, getAttr, dlookup_upsert_self, hnv, hu]
      · intro hu
        cases r with
        | mk t a c =>
            simp [setAttrElem, getAttr, dlookup_upsert_self, hnv, hu]

/-- Concrete instantiation of `C5_edit_roundtrip`: a document with one
`detector` child, editing attribute `thickness` with unit `cm` and value
`2.5`. -/
theorem C5_edit_roundtrip_witness :
    editCompact (.mk "root" [] [.mk "detector" [("thickness", "1*cm")] []])
        ⟨"f.xml".data, ["detector"], "thickness", "cm"⟩ "2.5"
      = .ok (.mk "root" [] [.mk "detector" [("thickness", "2.5*cm")] []]) ∧
    (∃ e, findPath (.mk "root" [] [.mk "detector" [("thickness", "2.5*cm")] []])
        ["detector"] = some e ∧
      ("cm" ≠ "" → getAttr e "thickness" = some ("2.5" ++ "*" ++ "cm")) ∧
      ("cm" = "" → getAttr e "thickness" = some "2.5")) := by
  have hEq : editCompact (.mk "root" [] [.mk "detector" [("thickness", "1*cm")] []])
      ⟨"f.xml".data, ["detector"], "thickness", "cm"⟩ "2.5"
    = .ok (.mk "root" [] [.mk "detector" [("thickness", "2.5*cm")] []]) := by
    simp [editCompact, getPathElementAndUnits, editPath, editInChildren,
      findPath, setAttrElem, upsert, XElem.tagOf]
  exact ⟨hEq, C5_edit_roundtrip _ _ "2.5" _ hEq⟩

/-! ## Configuration parsing (`EICMoboTools/ConfigParser.py`) -/

/-- JSON values occurring in the parameter-family and range tables: an
integer scalar or an array of integers. -/
inductive PyVal
  | int (n : Int)
  | list (xs : List Int)
deriving DecidableEq

/-- Python runtime errors surfaced by the embedded functions. -/
inductive PyErr
  | typeError
  | indexError
  | keyError (k : List Char)
  | nameErrorUnbound (n : String)
  | nameErrorRaised (msg : List Char)
deriving DecidableEq

/-- Python subscription `v[i]`: an integer is not subscriptable
(`TypeError`), an out-of-range index on a list is an `IndexError`. -/
def pySubscript (v : PyVal) (i : Nat) : Except PyErr Int :=
  match v with
  | .int _ => .error .typeError
  | .list xs =>
      match xs.get? i with
      | some x => .ok x
      | none => .error .indexError

/-- Python truthiness of the modelled values (`None`, absent in this
type, is handled at use sites). -/
def pyTruthy : PyVal → Bool
  | .int n => n ≠ 0
  | .list xs => xs ≠ []

/-- Python `range(1, n + 1)` as a list: `[1, ..., n]`, empty when
`n ≤ 0`. -/
def pyRange1To (n : Int) : List Int :=
  (List.range n.toNat).map (fun k => (k : Int) + 1)

/-- Inner loop of `GetDesignParamNames`: for each instance index `i`,
build the concrete key by substituting `str(i)` for `"_fill_"`, then
take the instance-specific range if its entry is truthy
(`rangeDict.get(key1)`), falling back to the family entry
(`rangeDict[key]`, a `KeyError` when absent). -/
def gdpnInner (rangeDict : List (List Char × PyVal)) (key : List Char) :
    List Int → List (List Char × PyVal) → Except PyErr (List (List Char × PyVal))
  | [], acc => .ok acc
  | i :: is, acc =>
      let key1 := replaceAll key "_fill_".data (toString i).data
      match dlookup rangeDict key1 with
      | some v =>
          if pyTruthy v then gdpnInner rangeDict key is (upsert acc key1 v)
          else
            match dlookup rangeDict key with
            | some w => gdpnInner rangeDict key is (upsert acc key1 w)
            | none => .error (.keyError key)
      | none =>
          match dlookup rangeDict key with
          | some w => gdpnInner rangeDict key is (upsert acc key1 w)
          | none => .error (.keyError key)

/-- Outer loop of `GetDesignParamNames`: for each family entry, the
instance count is `value[0]` (a `TypeError` when the entry is an
integer rather than a list), and the inner loop runs over
`range(1, value[0] + 1)`. -/
def gdpnOuter (rangeDict : List (List Char × PyVal)) :
    List (List Char × PyVal) → List (List Char × PyVal) → Except PyErr (List (List Char × PyVal))
  | [], acc => .ok acc
  | (key, value) :: rest, acc =>
      match pySubscript value 0 with
      | .error e => .error e
      | .ok n =>
          match gdpnInner rangeDict key (pyRange1To n) acc with
          | .ok acc2 => gdpnOuter rangeDict rest acc2
          | .error e => .error e

/-- `ConfigParser.GetDesignParamNames`. -/
def getDesignParamNames (dataDict rangeDict : List (List Char × PyVal)) :
    Except PyErr (List (List Char × PyVal)) :=
  gdpnOuter rangeDict dataDict []

/-- C6 counterexample: on the claim's stated input, the family spec
`{"stave_fill_": 3}` carries an integer, and `value[0]` in
`GetDesignParamNames` raises `TypeError` instead of returning the
claimed mapping. -/
theorem C6_counterexample :
    getDesignParamNames [("stave_fill_".data, .int 3)]
        [("stave_fill_".data, .list [0, 1])]
      = .error .typeError ∧
    getDesignParamNames [("stave_fill_".data, .int 3)]
        [("stave_fill_".data, .list [0, 1])]
      ≠ .ok [("stave1".data, .list [0, 1]), ("stave2".data, .list [0, 1]),
             ("stave3".data, .list [0, 1])] := by
  exact ⟨by decide, by decide⟩

/-- C6 (amended): with the family spec `{"stave_fill_": [3]}` — the
instance count being the first element of the family entry's list, as
the code's `value[0]` requires — and range table
`{"stave_fill_": [0,1]}` with no instance-specific overrides, the
expansion returns exactly
`{"stave1": [0,1], "stave2": [0,1], "stave3": [0,1]}`. -/
theorem C6_templated_expansion :
    getDesignParamNames [("stave_fill_".data, .list [3])]
        [("stave_fill_".data, .list [0, 1])]
      = .ok [("stave1".data, .list [0, 1]), ("stave2".data, .list [0, 1]),
             ("stave3".data, .list [0, 1])] := by
  decide

/-! ## Parameter lookup (`ConfigParser.GetParameter`, claim C9) -/

/-- A parameter-specification dictionary (the value stored under one
parameter name in the configuration). -/
def PyDict := List (String × List Char)

deriving instance DecidableEq for PyDict

/-- Global names bound in the module `EICMoboTools/ConfigParser.py`: its
imports (`json`, `os`, `sys`) and its own definitions.  The name
`ConfigParser` itself is not among them. -/
def configParserGlobals : List String :=
  ["json", "os", "sys", "ReadJsonFile", "GetParameter", "GetDesignParamNames"]

/-- Body of `GetParameter` after the module-name resolution: index the
`"parameters"` table with the requested key (a bare `KeyError` when
absent), return the entry when truthy, else raise the
`NameError('Parameter {parameter} not found in file {configFile}!')`
whose message is a non-interpolated literal. -/
def getParameterBody (parameter : String) (config : List (String × PyDict)) :
    Except PyErr PyDict :=
  match dlookup config parameter with
  | none => .error (.keyError parameter.data)
  | some v =>
      if v ≠ [] then .ok v
      else .error (.nameErrorRaised
        "Parameter {parameter} not found in file {configFile}!".data)

/-- `ConfigParser.GetParameter`: the body begins by evaluating
`ConfigParser.ReadJsonFile(configFile)`, which requires resolving the
global name `ConfigParser` in the module's namespace; the module never
binds that name, so every call raises `NameError` before any lookup. -/
def getParameter (parameter : String) (config : List (String × PyDict)) :
    Except PyErr PyDict :=
  if "ConfigParser" ∈ configParserGlobals then getParameterBody parameter config
  else .error (.nameErrorUnbound "ConfigParser")

/-- C9: for a name absent from the parameter configuration,
`GetParameter` does not raise a dedicated parameter-not-found error.
Every call — for any name — fails with the unbound-name `NameError` on
`ConfigParser` before the lookup even happens; and even the intended
body, reached once that slip is repaired, raises a bare `KeyError` for
an absent key, the dedicated message branch being unreachable for
absent names. -/
theorem C9_getParameter_never_dedicated_error :
    (∀ (parameter : String) (config : List (String × PyDict)),
      getParameter parameter config = .error (.nameErrorUnbound "ConfigParser")) ∧
    (∀ (parameter : String) (config : List (String × PyDict)),
      dlookup config parameter = none →
        getParameterBody parameter config = .error (.keyError parameter.data)) := by
  constructor
  · intro parameter config
    simp [getParameter, configParserGlobals]
  · intro parameter config h
    simp [getParameterBody, h]

/-- Concrete instantiation of the second part of
`C9_getParameter_never_dedicated_error`: looking up `"missing"` in a
configuration holding only `"present"`. -/
theorem C9_getParameter_witness :
    dlookup [("present", ([("path", "x".data)] : PyDict))] "missing" = none ∧
    getParameter "missing" [("present", ([("path", "x".data)] : PyDict))]
      = .error (.nameErrorUnbound "ConfigParser") ∧
    getParameterBody "missing" [("present", ([("path", "x".data)] : PyDict))]
      = .error (.keyError "missing".data) :=
  ⟨by decide,
    C9_getParameter_never_dedicated_error.1 "missing" _,
    C9_getParameter_never_dedicated_error.2 "missing" _ (by decide)⟩

/-! ## Objective extraction (`objectives/BICEnergyResolution.py`)

One truth-cluster association record carries the simulated particle's
PDG code and a kinematic payload.  The floating-point computation of
the relative energy residual from the payload (mass, momentum, cluster
energy) and the ROOT Gaussian fit are numeric externals; the histogram
and fit objects are modelled by the list of payloads of the records
that pass the PDG selection, which is exactly the data that determines
them. -/

structure Assoc (α : Type) where
  simPdg : Int
  payload : α
deriving DecidableEq

/-- Content of a file written by the extractor: the ROOT output holding
the histogram and fit objects, or a plain-text file of lines. -/
inductive FileData (α : Type)
  | rootFile (hist : List α) (fit : List α)
  | textFile (lines : List (List Char))
deriving DecidableEq

/-- Payloads of the records whose truth particle matches `pdg`, in
event order (the entries filled into `hEneRes`). -/
def matchedPayloads {α : Type} (events : List (List (Assoc α))) (pdg : Int) : List α :=
  ((events.foldl (fun acc frame => acc ++ frame) []).filter
    (fun a => a.simPdg = pdg)).map (fun a => a.payload)

/-- Sidecar path of an output file: `file.replace(".root", ".txt")`. -/
def txtOf (file : List Char) : List Char :=
  replaceAll file ".root".data ".txt".data

/-- `CalculateReso`: loop over all events, fill the residual histogram
with the records matching `pdg`, fit it, write histogram and fit to
`ofile` (ROOT `"recreate"` overwrites), and return the fitted width —
a value determined by the histogram contents, which stand in for it
here.  The function body contains no `raise` and writes no other
file. -/
def calculateReso {α : Type} (events : List (List (Assoc α))) (ofile : List Char)
    (pdg : Int) (fs : List (List Char × FileData α)) :
    List (List Char × FileData α) × List α :=
  let matched := matchedPayloads events pdg
  (upsert fs ofile (.rootFile matched matched), matched)

/-- C2: with zero entries passing the PDG selector, `CalculateReso`
does not raise: it completes normally, persists the (empty) histogram
and fit to the output file, and returns the fit parameter.  No
`NoMatchingParticlesError` exists anywhere in the code. -/
theorem C2_zero_match_returns_normally {α : Type} (events : List (List (Assoc α)))
    (pdg : Int) (ofile : List Char) (fs : List (List Char × FileData α))
    (h : matchedPayloads events pdg = []) :
    calculateReso events ofile pdg fs = (upsert fs ofile (.rootFile [] []), []) := by
  simp [calculateReso, h]

/-- Concrete instantiation of `C2_zero_match_returns_normally`: one
event holding one photon record (`PDG 22`), selector `PDG 11`. -/
theorem C2_zero_match_witness :
    matchedPayloads [[(⟨22, 0⟩ : Assoc Int)]] 11 = [] ∧
    calculateReso [[(⟨22, 0⟩ : Assoc Int)]] "test.root".data 11 []
      = (upsert [] "test.root".data (.rootFile [] []), []) :=
  ⟨by decide, C2_zero_match_returns_normally _ _ _ _ (by decide)⟩

/-- C3: after any run of `CalculateReso`, the histogram and fit objects
are persisted to the output file, but no plain-text sidecar is written:
the path obtained by replacing `".root"` with `".txt"` — the one the
repository's own test and `RunObjectives` read — remains absent. -/
theorem C3_no_sidecar_written {α : Type} (events : List (List (Assoc α)))
    (pdg : Int) (ofile : List Char) (fs : List (List Char × FileData α))
    (habs : dlookup fs (txtOf ofile) = none)
    (hne : txtOf ofile ≠ ofile) :
    dlookup (calculateReso events ofile pdg fs).1 ofile
      = some (.rootFile (matchedPayloads events pdg) (matchedPayloads events pdg)) ∧
    dlookup (calculateReso events ofile pdg fs).1 (txtOf ofile) = none := by
  constructor
  · simp [calculateReso, dlookup_upsert_self]
  · rw [calculateReso]
    rw [dlookup_upsert_ne _ _ _ _ hne]
    exact habs

/-- Concrete instantiation of `C3_no_sidecar_written`: an electron
record measured against selector `PDG 11`, output `test.root`; the
sidecar `test.txt` does not exist afterwards. -/
theorem C3_no_sidecar_witness :
    dlookup ([] : List (List Char × FileData Int)) (txtOf "test.root".data) = none ∧
    txtOf "test.root".data ≠ "test.root".data ∧
    (dlookup (calculateReso [[(⟨11, 7⟩ : Assoc Int)]] "test.root".data 11 []).1
        "test.root".data
      = some (.rootFile (matchedPayloads [[(⟨11, 7⟩ : Assoc Int)]] 11)
          (matchedPayloads [[(⟨11, 7⟩ : Assoc Int)]] 11)) ∧
     dlookup (calculateReso [[(⟨11, 7⟩ : Assoc Int)]] "test.root".data 11 []).1
        (txtOf "test.root".data) = none) :=
  ⟨by decide, by decide,
    C3_no_sidecar_written _ _ _ _ (by decide) (by decide)⟩

/-! ## Objective collection (`interfaces/RunObjectives.py`)

`RunObjectives` receives from the trial manager a mapping from
objective name to output-file path (`oFiles`), reads each objective's
sidecar when it exists on disk (first line parsed as the value; an
empty sidecar raises `IndexError`; the parsed text stands in for the
float), and finally, when `"Cost"` is listed in the objectives
configuration, computes the cost objective from the parameter values
alone.  The sidecar file system maps paths to lists of lines. -/

/-- Values stored in the returned objectives dictionary. -/
inductive OVal
  | sidecar (line : List Char)
  | num (n : Int)
deriving DecidableEq

/-- Python substring test `pat in s`. -/
def containsSub (pat : List Char) : List Char → Bool
  | [] => pat.isEmpty
  | c :: rest => pat.isPrefixOf (c :: rest) || containsSub pat rest

/-- Python substring test `"enable_staves_" in key`. -/
def hasStavesKey (p : String × Int) : Bool :=
  containsSub "enable_staves_".data p.1.data

/-- Cost loop of `RunObjectives`: `cost = 1`, then `cost += int(value)`
for every parameter whose name contains `"enable_staves_"` (parameter
values are modelled as the integers `int()` yields). -/
def computeCost (params : List (String × Int)) : Int :=
  params.foldl (fun cost p => if hasStavesKey p then cost + p.2 else cost) 1

/-- Extraction loop of `RunObjectives`: skip objectives whose sidecar
does not exist; otherwise record the sidecar's first line (an empty
sidecar is an `IndexError`). -/
def extractLoop (fs : List (List Char × List (List Char))) :
    List (String × List Char) → List (String × OVal) →
      Except PyErr (List (String × OVal))
  | [], acc => .ok acc
  | (obj, file) :: rest, acc =>
      match dlookup fs (txtOf file) with
      | none => extractLoop fs rest acc
      | some [] => .error .indexError
      | some (l :: _) => extractLoop fs rest (upsert acc obj (.sidecar l))

/-- Tail of `RunObjectives` after `DoTrial`: extract sidecar values,
then add the derived `Cost` entry when configured. -/
def runObjectivesModel (oFiles : List (String × List Char))
    (fs : List (List Char × List (List Char))) (cfg : List String)
    (params : List (String × Int)) : Except PyErr (List (String × OVal)) :=
  match extractLoop fs oFiles [] with
  | .error e => .error e
  | .ok objectives =>
      if "Cost" ∈ cfg then
        .ok (upsert objectives "Cost" (.num (computeCost params)))
      else .ok objectives

theorem computeCost_foldl (params : List (String × Int)) (init : Int) :
    params.foldl (fun cost p => if hasStavesKey p then cost + p.2 else cost) init
      = init + ((params.filter hasStavesKey).map Prod.snd).sum := by
  induction params generalizing init with
  | nil => simp
  | cons p ps ih =>
      by_cases hp : hasStavesKey p
      · simp [List.foldl_cons, hp, ih]
        ring
      · simp [List.foldl_cons, hp, ih]

/-- C8: when `"Cost"` is listed in the objectives configuration, the
returned mapping holds a `Cost` entry equal to `1` plus the sum of the
integer values of the parameters whose name contains
`"enable_staves_"` — a value computed from the parameter values alone
(the formula mentions neither the trial outputs nor the file system,
so no external executable is involved for this objective). -/
theorem C8_cost_entry (oFiles : List (String × List Char))
    (fs : List (List Char × List (List Char))) (cfg : List String)
    (params : List (String × Int)) (d : List (String × OVal))
    (hCost : "Cost" ∈ cfg)
    (h : runObjectivesModel oFiles fs cfg params = .ok d) :
    dlookup d "Cost"
      = some (.num (1 + ((params.filter hasStavesKey).map Prod.snd).sum)) := by
  rw [runObjectivesModel] at h
  cases hext : extractLoop fs oFiles [] with
  | error e => rw [hext] at h; cases h
  | ok objectives =>
      rw [hext] at h
      simp only [hCost, if_true] at h
      have hd : upsert objectives "Cost" (.num (computeCost params)) = d := by
        simpa using h
      subst hd
      rw [dlookup_upsert_self, computeCost, computeCost_foldl]

/-- Concrete instantiation of `C8_cost_entry`: parameters
`enable_staves_2 = 1` and `other = 5`, objectives `["EleReso","Cost"]`,
no sidecar on disk: the returned `Cost` is `1 + 1 = 2`. -/
theorem C8_cost_entry_witness :
    ("Cost" ∈ (["EleReso", "Cost"] : List String)) ∧
    runObjectivesModel [("EleReso", "a.root".data)] [] ["EleReso", "Cost"]
        [("enable_staves_2", 1), ("other", 5)]
      = .ok [("Cost", .num 2)] ∧
    dlookup [("Cost", OVal.num 2)] "Cost"
      = some (.num (1 + ((([("enable_staves_2", (1 : Int)), ("other", 5)].filter
          hasStavesKey).map Prod.snd).sum))) :=
  ⟨by decide, by decide,
    C8_cost_entry [("EleReso", "a.root".data)] [] ["EleReso", "Cost"]
      [("enable_staves_2", 1), ("other", 5)] [("Cost", .num 2)]
      (by decide) (by decide)⟩

theorem extractLoop_lookup_notmem (fs : List (List Char × List (List Char))) :
    ∀ (L : List (String × List Char)) (acc d : List (String × OVal)) (obj : String),
      extractLoop fs L acc = .ok d → obj ∉ L.map Prod.fst →
        dlookup d obj = dlookup acc obj := by
  intro L
  induction L with
  | nil =>
      intro acc d obj h _
      have : acc = d := by simpa [extractLoop] using h
      rw [this]
  | cons p rest ih =>
      obtain ⟨o, f⟩ := p
      intro acc d obj h hnm
      simp only [List.map_cons, List.mem_cons, not_or] at hnm
      obtain ⟨hno, hnm'⟩ := hnm
      cases hside : dlookup fs (txtOf f) with
      | none =>
          simp only [extractLoop, hside] at h
          exact ih acc d obj h hnm'
      | some lines =>
          cases lines with
          | nil => simp [extractLoop, hside] at h
          | cons l ls =>
              simp only [extractLoop, hside] at h
              rw [ih _ d obj h hnm', dlookup_upsert_ne _ _ _ _ hno]

theorem extractLoop_no_empty (fs : List (List Char × List (List Char))) :
    ∀ (L : List (String × List Char)) (acc d : List (String × OVal))
      (obj : String) (file : List Char),
      extractLoop fs L acc = .ok d → (obj, file) ∈ L →
        dlookup fs (txtOf file) ≠ some [] := by
  intro L
  induction L with
  | nil => intro acc d obj file _ hmem; simp at hmem
  | cons p rest ih =>
      obtain ⟨o, f⟩ := p
      intro acc d obj file h hmem
      cases hside : dlookup fs (txtOf f) with
      | none =>
          simp only [extractLoop, hside] at h
          rcases List.mem_cons.mp hmem with heq | hmem'
          · cases heq; rw [hside]; simp
          · exact ih _ d obj file h hmem'
      | some lines =>
          cases lines with
          | nil => simp [extractLoop, hside] at h
          | cons l ls =>
              simp only [extractLoop, hside] at h
              rcases List.mem_cons.mp hmem with heq | hmem'
              · cases heq; rw [hside]; simp
              · exact ih _ d obj file h hmem'

theorem extractLoop_lookup_mem_missing (fs : List (List Char × List (List Char))) :
    ∀ (L : List (String × List Char)) (acc d : List (String × OVal))
      (obj : String) (file : List Char),
      extractLoop fs L acc = .ok d → (obj, file) ∈ L →
        (L.map Prod.fst).Nodup → dlookup fs (txtOf file) = none →
        dlookup d obj = dlookup acc obj := by
  intro L
  induction L with
  | nil => intro acc d obj file _ hmem; simp at hmem
  | cons p rest ih =>
      obtain ⟨o, f⟩ := p
      intro acc d obj file h hmem hnodup hmiss
      simp only [List.map_cons, List.nodup_cons] at hnodup
      obtain ⟨honot, hnodup'⟩ := hnodup
      rcases List.mem_cons.mp hmem with heq | hmem'
      · obtain ⟨ho, hf⟩ := Prod.mk.injEq .. ▸ heq
        subst ho hf
        simp only [extractLoop, hmiss] at h
        exact extractLoop_lookup_notmem fs rest acc d obj h honot
      · have hobj : obj ∈ rest.map Prod.fst :=
          List.mem_map.mpr ⟨(obj, file), hmem', rfl⟩
        have hno : obj ≠ o := fun he => honot (he ▸ hobj)
        cases hside : dlookup fs (txtOf f) with
        | none =>
            simp only [extractLoop, hside] at h
            exact ih acc d obj file h hmem' hnodup' hmiss
        | some lines =>
            cases lines with
            | nil => simp [extractLoop, hside] at h
            | cons l ls =>
                simp only [extractLoop, hside] at h
                rw [ih _ d obj file h hmem' hnodup' hmiss,
                  dlookup_upsert_ne _ _ _ _ hno]

theorem extractLoop_lookup_mem_present (fs : List (List Char × List (List Char))) :
    ∀ (L : List (String × List Char)) (acc d : List (String × OVal))
      (obj : String) (file : List Char) (l : List Char) (ls : List (List Char)),
      extractLoop fs L acc = .ok d → (obj, file) ∈ L →
        (L.map Prod.fst).Nodup → dlookup fs (txtOf file) = some (l :: ls) →
        dlookup d obj = some (.sidecar l) := by
  intro L
  induction L with
  | nil => intro acc d obj file l ls _ hmem; simp at hmem
  | cons p rest ih =>
      obtain ⟨o, f⟩ := p
      intro acc d obj file l ls h hmem hnodup hpres
      simp only [List.map_cons, List.nodup_cons] at hnodup
      obtain ⟨honot, hnodup'⟩ := hnodup
      rcases List.mem_cons.mp hmem with heq | hmem'
      · obtain ⟨ho, hf⟩ := Prod.mk.injEq .. ▸ heq
        subst ho hf
        simp only [extractLoop, hpres] at h
        rw [extractLoop_lookup_notmem fs rest _ d obj h honot,
          dlookup_upsert_self]
      · cases hside : dlookup fs (txtOf f) with
        | none =>
            simp only [extractLoop, hside] at h
            exact ih acc d obj file l ls h hmem' hnodup' hpres
        | some lines =>
            cases lines with
            | nil => simp [extractLoop, hside] at h
            | cons l0 ls0 =>
                simp only [extractLoop, hside] at h
                exact ih _ d obj file l ls h hmem' hnodup' hpres

theorem extractLoop_all_missing (fs : List (List Char × List (List Char))) :
    ∀ (L : List (String × List Char)) (acc : List (String × OVal)),
      (∀ p ∈ L, dlookup fs (txtOf p.2) = none) →
        extractLoop fs L acc = .ok acc := by
  intro L
  induction L with
  | nil => intro acc _; rfl
  | cons p rest ih =>
      obtain ⟨o, f⟩ := p
      intro acc hall
      have hf : dlookup fs (txtOf f) = none := hall (o, f) (List.mem_cons_self _ _)
      simp only [extractLoop, hf]
      exact ih acc (fun q hq => hall q (List.mem_cons_of_mem _ hq))

/-- C10 counterexample: with `"Cost"` both among the configured
objectives and among the trial's output files, and its sidecar absent
from disk, the returned dictionary still contains a `"Cost"` entry —
so "entry present iff sidecar exists" fails for the mapping returned
by `RunObjectives`. -/
theorem C10_counterexample :
    runObjectivesModel [("Cost", "cost.root".data)] [] ["Cost"] []
      = .ok [("Cost", OVal.num 1)] ∧
    dlookup ([] : List (List Char × List (List Char))) (txtOf "cost.root".data)
      = none ∧
    (dlookup [("Cost", OVal.num 1)] "Cost").isSome = true := by
  exact ⟨by decide, by decide, by decide⟩

/-- C10 (amended): for every objective in the trial's output-file
mapping other than a configured `"Cost"` (whose entry is synthesized
from the parameters), the returned dictionary contains an entry for
the objective if and only if its sidecar text file exists on disk;
moreover, when no sidecar exists at all, no error is raised — the
extraction silently returns the dictionary holding at most the
derived `Cost` entry. -/
theorem C10_entry_iff_sidecar (oFiles : List (String × List Char))
    (fs : List (List Char × List (List Char))) (cfg : List String)
    (params : List (String × Int)) (d : List (String × OVal))
    (obj : String) (file : List Char)
    (h : runObjectivesModel oFiles fs cfg params = .ok d)
    (hmem : (obj, file) ∈ oFiles)
    (hnodup : (oFiles.map Prod.fst).Nodup)
    (hnc : obj ≠ "Cost" ∨ "Cost" ∉ cfg) :
    ((dlookup d obj).isSome ↔ (dlookup fs (txtOf file)).isSome) ∧
    ((∀ p ∈ oFiles, dlookup fs (txtOf p.2) = none) →
      runObjectivesModel oFiles fs cfg params
        = .ok (if "Cost" ∈ cfg then [("Cost", OVal.num (computeCost params))]
               else [])) := by
  rw [runObjectivesModel] at h
  cases hext : extractLoop fs oFiles [] with
  | error e => rw [hext] at h; cases h
  | ok d0 =>
      rw [hext] at h
      have hlook : dlookup d obj = dlookup d0 obj := by
        by_cases hc : "Cost" ∈ cfg
        · simp only [hc, if_true] at h
          have hd : upsert d0 "Cost" (.num (computeCost params)) = d := by
            simpa using h
          subst hd
          have hobjc : obj ≠ "Cost" := by
            rcases hnc with hx | hx
            · exact hx
            · exact absurd hc hx
          exact dlookup_upsert_ne _ _ _ _ hobjc
        · simp only [hc, if_false] at h
          have hd : d0 = d := by simpa using h
          rw [hd]
      constructor
      · cases hside : dlookup fs (txtOf file) with
        | none =>
            rw [hlook,
              extractLoop_lookup_mem_missing fs oFiles [] d0 obj file hext
                hmem hnodup hside]
            simp [dlookup]
        | some lines =>
            cases lines with
            | nil =>
                exact absurd hside
                  (extractLoop_no_empty fs oFiles [] d0 obj file hext hmem)
            | cons l ls =>
                rw [hlook,
                  extractLoop_lookup_mem_present fs oFiles [] d0 obj file l ls
                    hext hmem hnodup hside]
                simp [hside]
      · intro hall
        have he := extractLoop_all_missing fs oFiles [] hall
        rw [runObjectivesModel, he]
        by_cases hc : "Cost" ∈ cfg
        · simp [hc, upsert]
        · simp [hc]

/-- Concrete instantiation of `C10_entry_iff_sidecar`: one objective
`EleReso` with output `a.root` and an existing sidecar `a.txt` whose
first line is `0.05`. -/
theorem C10_entry_iff_sidecar_witness :
    runObjectivesModel [("EleReso", "a.root".data)]
        [("a.txt".data, ["0.05".data])] ["EleReso"] []
      = .ok [("EleReso", OVal.sidecar "0.05".data)] ∧
    (((dlookup [("EleReso", OVal.sidecar "0.05".data)] "EleReso").isSome ↔
        (dlookup [("a.txt".data, ["0.05".data])] (txtOf "a.root".data)).isSome) ∧
      ((∀ p ∈ [("EleReso", "a.root".data)],
          dlookup [("a.txt".data, ["0.05".data])] (txtOf p.2) = none) →
        runObjectivesModel [("EleReso", "a.root".data)]
            [("a.txt".data, ["0.05".data])] ["EleReso"] []
          = .ok (if "Cost" ∈ (["EleReso"] : List String) then
                   [("Cost", OVal.num (computeCost []))]
                 else []))) :=
  ⟨by decide,
    C10_entry_iff_sidecar [("EleReso", "a.root".data)]
      [("a.txt".data, ["0.05".data])] ["EleReso"] []
      [("EleReso", OVal.sidecar "0.05".data)] "EleReso" "a.root".data
      (by decide) (by decide) (by decide) (by decide)⟩

end BICMOBO
